import Mathlib

/-!
Verification of the effect-miner core (`src/tools/effect-miner/src/create3.rs`
and `src/tools/effect-miner/src/miner.rs`).

Bytes are modelled as `Nat` values below 256, byte strings as `List Nat`,
and 64-bit machine integers as `Nat` with explicit reduction modulo `2^64`
where overflow matters.  The Keccak-256 hash used through `tiny_keccak` is
embedded as an executable function on byte lists.  The rayon-parallel search
of `mine_salt` is embedded as its deterministic sequential counterpart: the
chunk loop and the per-chunk counter loop are run in order and the first
match is returned; the relaxed atomic attempt counter of a single sequential
worker is the number of counters tested so far.  The claims proved here are
invariant under the scheduling of workers, so the sequential embedding
settles them.
-/

set_option maxRecDepth 10000

/-- Mask selecting the low 64 bits of a natural number. -/
def u64mask : Nat := 2 ^ 64 - 1

/-- Largest value of a 64-bit unsigned integer (`u64::MAX`). -/
def U64MAX : Nat := 2 ^ 64 - 1

/-- Rotate a 64-bit lane left by `n` (0 ≤ n < 64). -/
def rotl64 (x n : Nat) : Nat := ((x <<< n) ||| (x >>> (64 - n))) &&& u64mask

/-- Round constants of Keccak-f[1600], rounds 0 to 11. -/
def keccakRCfirst : List Nat :=
  [0x0000000000000001, 0x0000000000008082,
   0x800000000000808a, 0x8000000080008000,
   0x000000000000808b, 0x0000000080000001,
   0x8000000080008081, 0x8000000000008009,
   0x000000000000008a, 0x0000000000000088,
   0x0000000080008009, 0x000000008000000a]

/-- Round constants of Keccak-f[1600], rounds 12 to 23. -/
def keccakRCsecond : List Nat :=
  [0x000000008000808b, 0x800000000000008b,
   0x8000000000008089, 0x8000000000008003,
   0x8000000000008002, 0x8000000000000080,
   0x000000000000800a, 0x800000008000000a,
   0x8000000080008081, 0x8000000000008080,
   0x0000000080000001, 0x8000000080008008]

/-- Round constants of all 24 rounds of Keccak-f[1600]. -/
def keccakRC : List Nat := keccakRCfirst ++ keccakRCsecond

/-- Rotation offsets of the ρ step for lanes 0 to 12 (flat index `x + 5*y`). -/
def keccakRotFirst : List Nat :=
  [0, 1, 62, 28, 27,
   36, 44, 6, 55, 20,
   3, 10, 43]

/-- Rotation offsets of the ρ step for lanes 13 to 24. -/
def keccakRotSecond : List Nat :=
  [25, 39,
   41, 45, 15, 21, 8,
   18, 2, 61, 56, 14]

/-- Rotation offsets of the ρ step for all 25 lanes. -/
def keccakRot : List Nat := keccakRotFirst ++ keccakRotSecond

/-- The θ step of Keccak-f on a state of 25 lanes (flat index `x + 5*y`). -/
def keccakTheta (s : List Nat) : List Nat :=
  let c := (List.range 5).map fun x =>
    (s.getD x 0) ^^^ (s.getD (x + 5) 0) ^^^ (s.getD (x + 10) 0) ^^^
      (s.getD (x + 15) 0) ^^^ (s.getD (x + 20) 0)
  let d := (List.range 5).map fun x =>
    (c.getD ((x + 4) % 5) 0) ^^^ rotl64 (c.getD ((x + 1) % 5) 0) 1
  (List.range 25).map fun i => (s.getD i 0) ^^^ (d.getD (i % 5) 0)

/-- The combined ρ and π steps of Keccak-f. -/
def keccakRhoPi (s : List Nat) : List Nat :=
  (List.range 25).foldl
    (fun b i =>
      let x := i % 5
      let y := i / 5
      b.set (y + 5 * ((2 * x + 3 * y) % 5)) (rotl64 (s.getD i 0) (keccakRot.getD i 0)))
    (List.replicate 25 0)

/-- The χ step of Keccak-f. -/
def keccakChi (s : List Nat) : List Nat :=
  (List.range 25).map fun i =>
    let x := i % 5
    let y := i / 5
    (s.getD i 0) ^^^
      (((s.getD ((x + 1) % 5 + 5 * y) 0) ^^^ u64mask) &&& (s.getD ((x + 2) % 5 + 5 * y) 0))

/-- One round of Keccak-f: θ, ρ, π, χ, then ι with round constant `rc`. -/
def keccakRound (s : List Nat) (rc : Nat) : List Nat :=
  let t := keccakChi (keccakRhoPi (keccakTheta s))
  t.set 0 ((t.getD 0 0) ^^^ rc)

/-- The full 24-round Keccak-f[1600] permutation. -/
def keccakF (s : List Nat) : List Nat := keccakRC.foldl keccakRound s

/-- Interpret up to eight bytes as a little-endian 64-bit lane. -/
def laneOfBytes (bs : List Nat) : Nat := bs.foldr (fun b acc => acc * 256 + b) 0

/-- Little-endian byte decomposition of a 64-bit lane. -/
def bytesOfLane (x : Nat) : List Nat :=
  (List.range 8).map fun k => (x >>> (8 * k)) &&& 0xff

/-- Absorb one 136-byte block into the sponge state and permute. -/
def absorbBlock (s : List Nat) (block : List Nat) : List Nat :=
  keccakF <| (List.range 25).map fun i =>
    (s.getD i 0) ^^^ (if i < 17 then laneOfBytes ((block.drop (8 * i)).take 8) else 0)

/-- Absorb `n` consecutive 136-byte blocks of `msg`. -/
def absorbBlocks (s : List Nat) : Nat → List Nat → List Nat
  | 0, _ => s
  | n + 1, msg => absorbBlocks (absorbBlock s (msg.take 136)) n (msg.drop 136)

/-- Multi-rate padding of original Keccak (domain byte `0x01`, final `0x80`). -/
def keccakPad (msg : List Nat) : List Nat :=
  let padLen := 136 - msg.length % 136
  msg ++ (if padLen = 1 then [0x81] else 0x01 :: List.replicate (padLen - 2) 0 ++ [0x80])

/-- Keccak-256 of a byte list: pad, absorb, squeeze the first 32 bytes.
Embeds the `keccak256` helper of `create3.rs` (`tiny_keccak`, `Keccak::v256`). -/
def keccak256 (msg : List Nat) : List Nat :=
  let p := keccakPad msg
  let s := absorbBlocks (List.replicate 25 0) (p.length / 136) p
  ((List.range 4).map fun i => bytesOfLane (s.getD i 0)).flatten

/-- Write the bytes `src` into `buf` starting at index `k`, one `List.set` per
byte: the embedding of `buf[k..k+src.len()].copy_from_slice(src)`. -/
def writeBytes : List Nat → Nat → List Nat → List Nat
  | buf, _, [] => buf
  | buf, k, b :: rest => writeBytes (buf.set k b) (k + 1) rest

/-- XOR the bytes `src` into `buf` starting at index `k`: the embedding of the
loop `for (j, &b) in counter_bytes.iter().enumerate() { salt_bytes[24+j] ^= b }`. -/
def xorBytes : List Nat → Nat → List Nat → List Nat
  | buf, _, [] => buf
  | buf, k, b :: rest => xorBytes (buf.set k ((buf.getD k 0) ^^^ b)) (k + 1) rest

/-- The init code hash of the CREATE3 proxy used by CreateX
(`PROXY_INIT_CODE_HASH` in `create3.rs`). -/
def PROXY_INIT_CODE_HASH : List Nat :=
  [0x21, 0xc3, 0x5d, 0xbe, 0x1b, 0x34, 0x4a, 0x24, 0x88, 0xcf, 0x33, 0x21,
   0xd6, 0xce, 0x54, 0x2f, 0x8e, 0x9f, 0x30, 0x55, 0x44, 0xff, 0x09, 0xe4,
   0x99, 0x3a, 0x62, 0x31, 0x9a, 0x49, 0x7c, 0x1f]

/-- Compute a CREATE2 address (`compute_create2_address` in `create3.rs`):
write `0xff`, the deployer, the salt and the init code hash into an 85-byte
buffer, hash it, and keep the low 20 bytes of the digest. -/
def compute_create2_address (deployer salt init_code_hash : List Nat) : List Nat :=
  let data := List.replicate 85 0
  let data := data.set 0 0xff
  let data := writeBytes data 1 deployer
  let data := writeBytes data 21 salt
  let data := writeBytes data 53 init_code_hash
  (keccak256 data).drop 12

/-- Compute a CREATE address for nonce 1 (`compute_create_address_nonce_1` in
`create3.rs`): hash the 23-byte buffer `0xd6 0x94 <deployer> 0x01` and keep
the low 20 bytes of the digest. -/
def compute_create_address_nonce_1 (deployer : List Nat) : List Nat :=
  let data := List.replicate 23 0
  let data := data.set 0 0xd6
  let data := data.set 1 0x94
  let data := writeBytes data 2 deployer
  let data := data.set 22 0x01
  (keccak256 data).drop 12

/-- Compute the final CREATE3 address (`compute_create3_address` in
`create3.rs`): CREATE2 proxy address first, then CREATE with nonce 1. -/
def compute_create3_address (salt createx_address : List Nat) : List Nat :=
  compute_create_address_nonce_1
    (compute_create2_address createx_address salt PROXY_INIT_CODE_HASH)

/-- Number of effect steps (`NUM_EFFECT_STEPS` in `create3.rs`). -/
def NUM_EFFECT_STEPS : Nat := 9

/-- Extract the bitmap from the most significant bits of an address
(`extract_bitmap` in `create3.rs`). -/
def extract_bitmap (address : List Nat) : Nat :=
  let top_16_bits := ((address.getD 0 0) <<< 8) ||| (address.getD 1 0)
  top_16_bits >>> (16 - NUM_EFFECT_STEPS)

/-- Check whether an address carries the target bitmap (`matches_bitmap` in
`create3.rs`). -/
def matches_bitmap (address : List Nat) (target_bitmap : Nat) : Bool :=
  extract_bitmap address == target_bitmap

/-- Big-endian byte decomposition of a 64-bit counter: the embedding of
`u64::to_be_bytes`. -/
def beBytes8 (i : Nat) : List Nat :=
  [i / 2 ^ 56 % 256, i / 2 ^ 48 % 256, i / 2 ^ 40 % 256, i / 2 ^ 32 % 256,
   i / 2 ^ 24 % 256, i / 2 ^ 16 % 256, i / 2 ^ 8 % 256, i % 256]

/-- Candidate salt for counter `i`: XOR the big-endian bytes of `i` into the
last eight bytes (offsets 24..32) of the base salt (`miner.rs`, lines 72-78). -/
def saltFor (base : List Nat) (i : Nat) : List Nat := xorBytes base 24 (beBytes8 i)

/-- Result of a successful mining operation (`MiningResult` in `miner.rs`). -/
structure MiningResult where
  salt : List Nat
  address : List Nat
  bitmap : Nat
  attempts : Nat
deriving DecidableEq, Repr

/-- Chunk size of the parallel iteration (`chunk_size` in `mine_salt`). -/
def chunkSize : Nat := 10000

/-- Number of chunks dispatched by `mine_salt`.  The computation
`(max_attempts + chunk_size - 1) / chunk_size` is 64-bit machine arithmetic,
so the sum is reduced modulo `2^64`. -/
def maxChunks (max_attempts : Nat) : Nat :=
  if max_attempts = 0 then U64MAX / chunkSize
  else ((max_attempts + chunkSize - 1) % 2 ^ 64) / chunkSize

/-- Scan `cnt` consecutive counters starting at `start`: derive the candidate
salt, derive the address, test the bitmap, and return the first match.  This
is the body of the per-chunk loop of `mine_salt`; `attempts` of a result is
the sequential count of counters tested up to and including the match. -/
def scanFrom (createx : List Nat) (target : Nat) (base : List Nat) :
    Nat → Nat → Option MiningResult
  | _, 0 => none
  | start, cnt + 1 =>
    if matches_bitmap (compute_create3_address (saltFor base start) createx) target then
      some ⟨saltFor base start, compute_create3_address (saltFor base start) createx,
        extract_bitmap (compute_create3_address (saltFor base start) createx), start + 1⟩
    else
      scanFrom createx target base (start + 1) cnt

/-- Run the chunk loop of `mine_salt` sequentially: chunk `c` scans counters
from `start = c * chunk_size` up to `stop = start + chunk_size` (unlimited
case) or `stop = min (start + chunk_size) max_attempts` (bounded case), and
the first chunk producing a match wins. -/
def mineChunks (createx : List Nat) (target : Nat) (base : List Nat)
    (max_attempts : Nat) : Nat → Nat → Option MiningResult
  | _, 0 => none
  | c, n + 1 =>
    match scanFrom createx target base (c * chunkSize)
        ((if max_attempts = 0 then c * chunkSize + chunkSize
          else min (c * chunkSize + chunkSize) max_attempts) - c * chunkSize) with
    | some r => some r
    | none => mineChunks createx target base max_attempts (c + 1) n

/-- Mine a salt whose derived address carries `target_bitmap` (`mine_salt` in
`miner.rs`).  `base` is the caller-supplied base salt, or the 32 random bytes
drawn once per search when the caller supplies none; the randomness is
modelled by quantifying over `base`. -/
def mine_salt (createx_address : List Nat) (target_bitmap : Nat)
    (base : List Nat) (max_attempts : Nat) : Option MiningResult :=
  mineChunks createx_address target_bitmap base max_attempts 0
    (maxChunks max_attempts)

/-- Upper end of the counters covered by the first `k` chunks. -/
def chunksUpTo (max_attempts k : Nat) : Nat :=
  if max_attempts = 0 then k * chunkSize else min (k * chunkSize) max_attempts

/-- Upper end of the initial segment of counters actually scanned by
`mine_salt`. -/
def scanUpper (max_attempts : Nat) : Nat :=
  chunksUpTo max_attempts (maxChunks max_attempts)

/-- Base salt derived from an effect name (`mine_multiple` in `miner.rs`,
lines 118-123): copy the first `min (length, 20)` bytes of the name's byte
encoding into the start of an otherwise-zero 32-byte buffer. -/
def baseSaltOfName (name_bytes : List Nat) : List Nat :=
  writeBytes (List.replicate 32 0) 0 (name_bytes.take 20)

/-- Mine salts for multiple effects (`mine_multiple` in `miner.rs`); effect
names are given by their byte encodings.  The rayon `map` over targets is
order-preserving and side-effect free, so it is embedded as `List.map`. -/
def mine_multiple (createx_address : List Nat) (effects : List (List Nat × Nat))
    (max_attempts_per_effect : Nat) : List (List Nat × Option MiningResult) :=
  effects.map fun e =>
    (e.1, mine_salt createx_address e.2 (baseSaltOfName e.1) max_attempts_per_effect)

/-- Expected number of attempts for a 9-bit bitmap (`expected_attempts`). -/
def expected_attempts : Nat := 512

/-- The canonical CreateX factory address used by the repository's tests. -/
def createxAddr : List Nat :=
  [0xba, 0x5e, 0xd0, 0x99, 0x63, 0x3d, 0x3b, 0x31, 0x3e, 0x4d,
   0x5f, 0x7b, 0xdc, 0x13, 0x05, 0xd3, 0xc2, 0x8b, 0xa5, 0xed]

/-- The all-zero 32-byte salt. -/
def zeroSalt : List Nat := List.replicate 32 0

/-- The CREATE3 address derived from the zero salt and `createxAddr`. -/
def goldenAddr : List Nat :=
  [0x77, 0x34, 0xb8, 0xea, 0x70, 0x48, 0xef, 0x3f, 0xc5, 0xf8,
   0x60, 0x4d, 0x9d, 0xd8, 0x81, 0x99, 0xab, 0x88, 0xcf, 0x5a]

/-!  Helper lemmas about byte-buffer writes. -/

theorem drop_replicate (m n : Nat) (a : Nat) :
    (List.replicate n a).drop m = List.replicate (n - m) a := by
  induction m generalizing n with
  | zero => simp
  | succ m ih =>
    cases n with
    | zero => simp
    | succ n =>
      rw [List.replicate_succ, List.drop_succ_cons, Nat.succ_sub_succ]
      exact ih n

theorem writeBytes_append (src : List Nat) :
    ∀ (pre suf : List Nat) (k : Nat), k = pre.length → src.length ≤ suf.length →
      writeBytes (pre ++ suf) k src = pre ++ (src ++ suf.drop src.length) := by
  induction src with
  | nil => intro pre suf k hk _; simp [writeBytes]
  | cons b rest ih =>
    intro pre suf k hk hlen
    cases suf with
    | nil => simp at hlen
    | cons s0 suf' =>
      have hset : (pre ++ s0 :: suf').set k b = pre ++ b :: suf' := by
        subst hk
        rw [List.set_append_right _ _ (Nat.le_refl _)]
        simp
      have hstep : writeBytes (pre ++ s0 :: suf') k (b :: rest) =
          writeBytes ((pre ++ s0 :: suf').set k b) (k + 1) rest := rfl
      rw [hstep, hset]
      have hre : pre ++ b :: suf' = (pre ++ [b]) ++ suf' := by simp
      have hk' : k + 1 = (pre ++ [b]).length := by simp [hk]
      have hlen' : rest.length ≤ suf'.length := by simpa using hlen
      rw [hre, ih (pre ++ [b]) suf' (k + 1) hk' hlen']
      simp

theorem xorBytes_append (src : List Nat) :
    ∀ (pre suf : List Nat) (k : Nat), k = pre.length → src.length ≤ suf.length →
      xorBytes (pre ++ suf) k src =
        pre ++ (List.zipWith (fun x y => x ^^^ y) suf src ++ suf.drop src.length) := by
  induction src with
  | nil => intro pre suf k hk _; simp [xorBytes]
  | cons b rest ih =>
    intro pre suf k hk hlen
    cases suf with
    | nil => simp at hlen
    | cons s0 suf' =>
      have hget : (pre ++ s0 :: suf').getD k 0 = s0 := by
        subst hk
        rw [List.getD_append_right _ _ _ _ (Nat.le_refl _)]
        simp
      have hset : (pre ++ s0 :: suf').set k ((pre ++ s0 :: suf').getD k 0 ^^^ b) =
          pre ++ (s0 ^^^ b) :: suf' := by
        rw [hget]
        subst hk
        rw [List.set_append_right _ _ (Nat.le_refl _)]
        simp
      have hstep : xorBytes (pre ++ s0 :: suf') k (b :: rest) =
          xorBytes ((pre ++ s0 :: suf').set k ((pre ++ s0 :: suf').getD k 0 ^^^ b))
            (k + 1) rest := rfl
      rw [hstep, hset]
      have hre : pre ++ (s0 ^^^ b) :: suf' = (pre ++ [s0 ^^^ b]) ++ suf' := by simp
      have hk' : k + 1 = (pre ++ [s0 ^^^ b]).length := by simp [hk]
      have hlen' : rest.length ≤ suf'.length := by simpa using hlen
      rw [hre, ih (pre ++ [s0 ^^^ b]) suf' (k + 1) hk' hlen']
      simp

/-- Slice form of the candidate-salt construction: the loop of `mine_salt`
XORs the eight big-endian counter bytes into offsets 24..32 of the base. -/
theorem saltFor_eq (base : List Nat) (i : Nat) (hb : base.length = 32) :
    saltFor base i =
      base.take 24 ++ List.zipWith (fun x y => x ^^^ y) (base.drop 24) (beBytes8 i) := by
  have hsplit : base = base.take 24 ++ base.drop 24 := (List.take_append_drop 24 base).symm
  have hlen24 : (base.take 24).length = 24 := by simp [hb]
  have hdlen : (base.drop 24).length = 8 := by simp [hb]
  have hblen : (beBytes8 i).length = 8 := by simp [beBytes8]
  calc saltFor base i
      = xorBytes (base.take 24 ++ base.drop 24) 24 (beBytes8 i) := by
        rw [saltFor, ← hsplit]
    _ = base.take 24 ++
          (List.zipWith (fun x y => x ^^^ y) (base.drop 24) (beBytes8 i) ++
            (base.drop 24).drop (beBytes8 i).length) := by
        exact xorBytes_append (beBytes8 i) (base.take 24) (base.drop 24) 24
          hlen24.symm (le_of_eq (hblen.trans hdlen.symm))
    _ = base.take 24 ++ List.zipWith (fun x y => x ^^^ y) (base.drop 24) (beBytes8 i) := by
        rw [List.drop_eq_nil_of_le (le_of_eq (hdlen.trans hblen.symm))]
        simp

/-!  Helper lemmas about the sequential search loops. -/

theorem scanFrom_add (f : List Nat) (t : Nat) (b : List Nat) (m : Nat) :
    ∀ (k s : Nat), scanFrom f t b s (m + k) =
      match scanFrom f t b s m with
      | some r => some r
      | none => scanFrom f t b (s + m) k := by
  induction m with
  | zero => intro k s; simp [scanFrom]
  | succ m ih =>
    intro k s
    have h1 : m + 1 + k = (m + k) + 1 := by omega
    rw [h1]
    by_cases hm : matches_bitmap (compute_create3_address (saltFor b s) f) t = true
    · simp [scanFrom, hm]
    · have hm' : matches_bitmap (compute_create3_address (saltFor b s) f) t = false :=
        Bool.not_eq_true _ ▸ hm
      simp only [scanFrom, hm', Bool.false_eq_true, if_false]
      rw [ih k (s + 1)]
      have h2 : s + 1 + m = s + (m + 1) := by omega
      rw [h2]

theorem scanFrom_eq_none_iff (f : List Nat) (t : Nat) (b : List Nat) (n : Nat) :
    ∀ s, scanFrom f t b s n = none ↔
      ∀ i, s ≤ i → i < s + n →
        matches_bitmap (compute_create3_address (saltFor b i) f) t = false := by
  induction n with
  | zero =>
    intro s
    constructor
    · intro _ i h1 h2; exact absurd h2 (by omega)
    · intro _; rfl
  | succ n ih =>
    intro s
    cases hm : matches_bitmap (compute_create3_address (saltFor b s) f) t with
    | true =>
      simp only [scanFrom, hm, if_true]
      constructor
      · intro h; exact absurd h (by simp)
      · intro hall
        have := hall s (Nat.le_refl s) (by omega)
        rw [hm] at this
        exact absurd this (by simp)
    | false =>
      simp only [scanFrom, hm, Bool.false_eq_true, if_false]
      rw [ih (s + 1)]
      constructor
      · intro h i h1 h2
        rcases Nat.eq_or_lt_of_le h1 with heq | hlt
        · rw [← heq]; exact hm
        · exact h i (by omega) (by omega)
      · intro h i h1 h2
        exact h i (by omega) (by omega)

theorem scanFrom_eq_some (f : List Nat) (t : Nat) (b : List Nat) (n : Nat) :
    ∀ s r, scanFrom f t b s n = some r →
      ∃ i, s ≤ i ∧ i < s + n ∧
        matches_bitmap (compute_create3_address (saltFor b i) f) t = true ∧
        r = ⟨saltFor b i, compute_create3_address (saltFor b i) f,
          extract_bitmap (compute_create3_address (saltFor b i) f), i + 1⟩ := by
  induction n with
  | zero => intro s r h; exact absurd h (by simp [scanFrom])
  | succ n ih =>
    intro s r h
    cases hm : matches_bitmap (compute_create3_address (saltFor b s) f) t with
    | true =>
      rw [scanFrom, if_pos hm] at h
      exact ⟨s, Nat.le_refl s, by omega, hm, (Option.some.inj h).symm⟩
    | false =>
      rw [scanFrom, hm] at h
      simp only [Bool.false_eq_true, if_false] at h
      obtain ⟨i, h1, h2, h3, h4⟩ := ih (s + 1) r h
      exact ⟨i, by omega, by omega, h3, h4⟩


theorem mineChunks_eq (f : List Nat) (t : Nat) (b : List Nat) (ma : Nat) (n : Nat) :
    ∀ c, mineChunks f t b ma c n =
      scanFrom f t b (c * chunkSize) (chunksUpTo ma (c + n) - c * chunkSize) := by
  induction n with
  | zero =>
    intro c
    have h0 : chunksUpTo ma (c + 0) - c * chunkSize = 0 := by
      simp only [chunksUpTo, chunkSize, Nat.add_zero]
      split <;> omega
    rw [h0]
    rfl
  | succ n ih =>
    intro c
    by_cases h0 : ma = 0
    · simp only [mineChunks, chunksUpTo, chunkSize, if_pos h0]
      have hsplit : (c + (n + 1)) * 10000 - c * 10000 =
          (c * 10000 + 10000 - c * 10000) +
            ((c + (n + 1)) * 10000 - (c * 10000 + 10000)) := by omega
      rw [hsplit, scanFrom_add]
      cases hscan : scanFrom f t b (c * 10000) (c * 10000 + 10000 - c * 10000) with
      | some r => rfl
      | none =>
        show mineChunks f t b ma (c + 1) n =
          scanFrom f t b (c * 10000 + (c * 10000 + 10000 - c * 10000))
            ((c + (n + 1)) * 10000 - (c * 10000 + 10000))
        rw [ih (c + 1)]
        simp only [chunksUpTo, chunkSize, if_pos h0]
        have e2 : (c + 1 + n) * 10000 - (c + 1) * 10000 =
            (c + (n + 1)) * 10000 - (c * 10000 + 10000) := by omega
        have e1 : (c + 1) * 10000 = c * 10000 + (c * 10000 + 10000 - c * 10000) := by
          omega
        rw [e2, e1]
    · simp only [mineChunks, chunksUpTo, chunkSize, if_neg h0]
      have hsplit : min ((c + (n + 1)) * 10000) ma - c * 10000 =
          (min (c * 10000 + 10000) ma - c * 10000) +
            (min ((c + (n + 1)) * 10000) ma - min (c * 10000 + 10000) ma) := by omega
      rw [hsplit, scanFrom_add]
      cases hscan : scanFrom f t b (c * 10000) (min (c * 10000 + 10000) ma - c * 10000) with
      | some r => rfl
      | none =>
        show mineChunks f t b ma (c + 1) n =
          scanFrom f t b (c * 10000 + (min (c * 10000 + 10000) ma - c * 10000))
            (min ((c + (n + 1)) * 10000) ma - min (c * 10000 + 10000) ma)
        rw [ih (c + 1)]
        simp only [chunksUpTo, chunkSize, if_neg h0]
        by_cases hcase : c * 10000 + 10000 ≤ ma
        · have e2 : min ((c + 1 + n) * 10000) ma - (c + 1) * 10000 =
              min ((c + (n + 1)) * 10000) ma - min (c * 10000 + 10000) ma := by omega
          have e1 : (c + 1) * 10000 =
              c * 10000 + (min (c * 10000 + 10000) ma - c * 10000) := by omega
          rw [e2, e1]
        · have e1 : min ((c + 1 + n) * 10000) ma - (c + 1) * 10000 = 0 := by omega
          have e2 : min ((c + (n + 1)) * 10000) ma - min (c * 10000 + 10000) ma = 0 := by
            omega
          rw [e1, e2]
          simp only [scanFrom]

/-- The chunked parallel loop of `mine_salt`, run sequentially, is the first
match over the initial counter segment `[0, scanUpper max_attempts)`. -/
theorem mine_salt_eq_scan (f : List Nat) (t : Nat) (b : List Nat) (ma : Nat) :
    mine_salt f t b ma = scanFrom f t b 0 (scanUpper ma) := by
  simp only [mine_salt, scanUpper]
  rw [mineChunks_eq f t b ma (maxChunks ma) 0]
  simp

/-!  Helper lemmas about bit extraction and the counter bytes. -/

theorem lor_small_bit : ∀ x, x < 256 → ∀ t, t < 2 → ((x <<< 1) ||| t) = 2 * x + t := by
  decide

theorem shift7_lor (b0 b1 : Nat) :
    ((b0 <<< 8) ||| b1) >>> 7 = (b0 <<< 1) ||| (b1 >>> 7) := by
  apply Nat.eq_of_testBit_eq
  intro j
  simp only [Nat.testBit_shiftRight, Nat.testBit_or, Nat.testBit_shiftLeft]
  cases j with
  | zero => simp
  | succ j =>
    have h1 : 8 ≤ 7 + (j + 1) := by omega
    have h2 : 1 ≤ j + 1 := by omega
    have h3 : 7 + (j + 1) - 8 = j + 1 - 1 := by omega
    simp [h1, h2, h3]

theorem extract_bitmap_unfold (a : List Nat) :
    extract_bitmap a = ((a.getD 0 0 <<< 8) ||| a.getD 1 0) >>> 7 := rfl

theorem zipWith_xor_zero : ∀ (l : List Nat) (n : Nat),
    List.zipWith (fun x y => x ^^^ y) l (List.replicate n 0) = l.take n := by
  intro l
  induction l with
  | nil => intro n; simp
  | cons a l ih =>
    intro n
    cases n with
    | zero => simp
    | succ n => simp [List.replicate_succ, ih n]

theorem zipWith_xor_right_inj : ∀ (d u v : List Nat),
    u.length = d.length → v.length = d.length →
    List.zipWith (fun x y => x ^^^ y) d u = List.zipWith (fun x y => x ^^^ y) d v →
    u = v := by
  intro d
  induction d with
  | nil =>
    intro u v hu hv _
    rw [List.length_nil, List.length_eq_zero] at hu hv
    rw [hu, hv]
  | cons a d ih =>
    intro u v hu hv heq
    cases u with
    | nil => simp at hu
    | cons u0 us =>
      cases v with
      | nil => simp at hv
      | cons v0 vs =>
        simp only [List.zipWith_cons_cons, List.cons.injEq] at heq
        obtain ⟨h1, h2⟩ := heq
        have hu0 : u0 = v0 := Nat.xor_right_inj.mp h1
        have hrest : us = vs := ih us vs (by simpa using hu) (by simpa using hv) h2
        rw [hu0, hrest]

theorem beBytes8_inj (i j : Nat) (hi : i < 2 ^ 64) (hj : j < 2 ^ 64)
    (h : beBytes8 i = beBytes8 j) : i = j := by
  simp only [beBytes8, List.cons.injEq, and_true] at h
  obtain ⟨h1, h2, h3, h4, h5, h6, h7, h8⟩ := h
  omega

/-- C5: `extract_bitmap` interprets the first two bytes of an address as a
big-endian 16-bit integer and shifts it right by 7, yielding a value in
[0, 511]; `matches_bitmap` holds iff the extracted value equals the target;
first bytes `0x21, 0x00` yield `0x042` and `0xF0, 0x00` yield `0x1E0`. -/
theorem C5_extract_bitmap_spec (a : List Nat) (t : Nat)
    (h0 : a.getD 0 0 < 256) (h1 : a.getD 1 0 < 256) :
    extract_bitmap a = (a.getD 0 0 * 256 + a.getD 1 0) / 2 ^ 7 ∧
    extract_bitmap a < 512 ∧
    (matches_bitmap a t = true ↔ extract_bitmap a = t) ∧
    extract_bitmap (0x21 :: 0x00 :: a) = 0x042 ∧
    extract_bitmap (0xF0 :: 0x00 :: a) = 0x1E0 := by
  have ht7 : a.getD 1 0 >>> 7 = a.getD 1 0 / 128 := by
    rw [Nat.shiftRight_eq_div_pow]
  have key : extract_bitmap a = (a.getD 0 0 * 256 + a.getD 1 0) / 2 ^ 7 := by
    rw [extract_bitmap_unfold, shift7_lor,
      lor_small_bit (a.getD 0 0) h0 (a.getD 1 0 >>> 7) (by rw [ht7]; omega), ht7]
    omega
  refine ⟨key, ?_, ?_, ?_, ?_⟩
  · rw [key]; omega
  · simp [matches_bitmap]
  · rw [extract_bitmap_unfold]
    simp only [List.getD_cons_zero, List.getD_cons_succ]
    decide
  · rw [extract_bitmap_unfold]
    simp only [List.getD_cons_zero, List.getD_cons_succ]
    decide

/-- Witness for C5 at the CreateX factory address and target `0x174`. -/
theorem C5_witness :
    (createxAddr.getD 0 0 < 256 ∧ createxAddr.getD 1 0 < 256) ∧
    (extract_bitmap createxAddr =
        (createxAddr.getD 0 0 * 256 + createxAddr.getD 1 0) / 2 ^ 7 ∧
      extract_bitmap createxAddr < 512 ∧
      (matches_bitmap createxAddr 0x174 = true ↔ extract_bitmap createxAddr = 0x174) ∧
      extract_bitmap (0x21 :: 0x00 :: createxAddr) = 0x042 ∧
      extract_bitmap (0xF0 :: 0x00 :: createxAddr) = 0x1E0) :=
  ⟨⟨by decide, by decide⟩,
    C5_extract_bitmap_spec createxAddr 0x174 (by decide) (by decide)⟩

/-- C8: the extracted bitmap depends only on the first two bytes of the
address: two addresses agreeing on their first two bytes extract equally,
and setting any byte at index 2 or above leaves the result unchanged. -/
theorem C8_extract_bitmap_local (a b : List Nat) (h : a.take 2 = b.take 2) :
    extract_bitmap a = extract_bitmap b ∧
    ∀ j v, 2 ≤ j → extract_bitmap (a.set j v) = extract_bitmap a := by
  have e0 : ∀ (l : List Nat), (l.take 2).getD 0 0 = l.getD 0 0 := fun l => by
    rw [List.getD_eq_getElem?_getD, List.getD_eq_getElem?_getD,
      List.getElem?_take_of_lt (by omega)]
  have e1 : ∀ (l : List Nat), (l.take 2).getD 1 0 = l.getD 1 0 := fun l => by
    rw [List.getD_eq_getElem?_getD, List.getD_eq_getElem?_getD,
      List.getElem?_take_of_lt (by omega)]
  have h0 : a.getD 0 0 = b.getD 0 0 := by rw [← e0 a, ← e0 b, h]
  have h1 : a.getD 1 0 = b.getD 1 0 := by rw [← e1 a, ← e1 b, h]
  constructor
  · rw [extract_bitmap_unfold, extract_bitmap_unfold, h0, h1]
  · intro j v hj
    have s0 : (a.set j v).getD 0 0 = a.getD 0 0 := by
      rw [List.getD_eq_getElem?_getD, List.getD_eq_getElem?_getD,
        List.getElem?_set_ne (by omega)]
    have s1 : (a.set j v).getD 1 0 = a.getD 1 0 := by
      rw [List.getD_eq_getElem?_getD, List.getD_eq_getElem?_getD,
        List.getElem?_set_ne (by omega)]
    rw [extract_bitmap_unfold, extract_bitmap_unfold, s0, s1]

/-- Witness for C8 at the golden address and a two-byte list sharing its
first two bytes. -/
theorem C8_witness :
    (goldenAddr.take 2 = ([0x77, 0x34] : List Nat).take 2) ∧
    (extract_bitmap goldenAddr = extract_bitmap [0x77, 0x34] ∧
      ∀ j v, 2 ≤ j → extract_bitmap (goldenAddr.set j v) = extract_bitmap goldenAddr) :=
  ⟨by decide, C8_extract_bitmap_local goldenAddr [0x77, 0x34] (by decide)⟩

/-- C6: the candidate salt for counter `i` is the base salt with the
big-endian 8-byte encoding of `i` XOR-ed into its last eight bytes (offsets
24..32), the first 24 bytes staying untouched. -/
theorem C6_salt_derivation (base : List Nat) (i : Nat) (hb : base.length = 32) :
    saltFor base i =
      base.take 24 ++ List.zipWith (fun x y => x ^^^ y) (base.drop 24) (beBytes8 i) ∧
    (saltFor base i).take 24 = base.take 24 := by
  refine ⟨saltFor_eq base i hb, ?_⟩
  rw [saltFor_eq base i hb]
  exact List.take_left' (by simp [hb])

/-- Witness for C6 at the zero salt and counter 3. -/
theorem C6_witness :
    (zeroSalt.length = 32) ∧
    (saltFor zeroSalt 3 =
        zeroSalt.take 24 ++
          List.zipWith (fun x y => x ^^^ y) (zeroSalt.drop 24) (beBytes8 3) ∧
      (saltFor zeroSalt 3).take 24 = zeroSalt.take 24) :=
  ⟨by decide, C6_salt_derivation zeroSalt 3 (by decide)⟩

/-- C10: for a fixed 32-byte base salt the counter-to-salt mapping sends
counter 0 to the base salt itself and is injective on 64-bit counters, so
sequential enumeration never tests the same salt twice and tests the base
salt first. -/
theorem C10_counter_salt_injective (base : List Nat) (hb : base.length = 32) :
    saltFor base 0 = base ∧
    ∀ i j, i < 2 ^ 64 → j < 2 ^ 64 → i ≠ j → saltFor base i ≠ saltFor base j := by
  constructor
  · rw [saltFor_eq base 0 hb]
    have hd : (base.drop 24).length = 8 := by simp [hb]
    rw [show beBytes8 0 = List.replicate 8 0 from rfl, zipWith_xor_zero, ← hd,
      List.take_length, List.take_append_drop]
  · intro i j hi hj hne heq
    rw [saltFor_eq base i hb, saltFor_eq base j hb] at heq
    have heq2 := List.append_cancel_left heq
    have hbe : beBytes8 i = beBytes8 j :=
      zipWith_xor_right_inj (base.drop 24) (beBytes8 i) (beBytes8 j)
        (by simp [beBytes8, hb]) (by simp [beBytes8, hb]) heq2
    exact hne (beBytes8_inj i j hi hj hbe)

/-- Witness for C10 at the zero salt. -/
theorem C10_witness :
    (zeroSalt.length = 32) ∧
    (saltFor zeroSalt 0 = zeroSalt ∧
      ∀ i j, i < 2 ^ 64 → j < 2 ^ 64 → i ≠ j → saltFor zeroSalt i ≠ saltFor zeroSalt j) :=
  ⟨by decide, C10_counter_salt_injective zeroSalt (by decide)⟩

/-- When the bounded chunk-count computation does not wrap, the scanned
segment is exactly `[0, max_attempts)`. -/
theorem scanUpper_bounded (ma : Nat) (h0 : ma ≠ 0)
    (hle : ma + chunkSize - 1 < 2 ^ 64) : scanUpper ma = ma := by
  have hle' : ma + 10000 - 1 < 2 ^ 64 := by simpa [chunkSize] using hle
  simp only [scanUpper, chunksUpTo, maxChunks, chunkSize, U64MAX, if_neg h0]
  have hmod : (ma + 10000 - 1) % 2 ^ 64 = ma + 10000 - 1 :=
    Nat.mod_eq_of_lt hle'
  rw [hmod]
  omega

/-- C1: whenever `mine_salt` returns a result, the result's address is the
CREATE3 address of its salt, its bitmap is the bitmap extracted from that
address and equals the target bitmap, and its salt is the counter-to-salt
mapping applied to some counter in the searched range. -/
theorem C1_mine_salt_sound (f : List Nat) (t : Nat) (b : List Nat) (ma : Nat)
    (r : MiningResult) (_ht : t < 512) (h : mine_salt f t b ma = some r) :
    r.address = compute_create3_address r.salt f ∧
    r.bitmap = extract_bitmap r.address ∧
    r.bitmap = t ∧
    ∃ i, i < scanUpper ma ∧ r.salt = saltFor b i := by
  rw [mine_salt_eq_scan] at h
  obtain ⟨i, hi1, hi2, hm, hr⟩ := scanFrom_eq_some f t b (scanUpper ma) 0 r h
  subst hr
  refine ⟨rfl, rfl, ?_, ⟨i, by omega, rfl⟩⟩
  simpa [matches_bitmap] using hm

/-- Witness for C1: with the zero base salt, target `0xEE` and one attempt,
`mine_salt` succeeds at counter 0 and returns the golden address. -/
theorem C1_witness :
    (238 < 512 ∧ mine_salt createxAddr 238 zeroSalt 1 =
      some ⟨zeroSalt, goldenAddr, 238, 1⟩) ∧
    (goldenAddr = compute_create3_address zeroSalt createxAddr ∧
      (238 : Nat) = extract_bitmap goldenAddr ∧
      (238 : Nat) = 238 ∧
      ∃ i, i < scanUpper 1 ∧ zeroSalt = saltFor zeroSalt i) := by
  have h : mine_salt createxAddr 238 zeroSalt 1 =
      some ⟨zeroSalt, goldenAddr, 238, 1⟩ := by decide
  exact ⟨⟨by decide, h⟩,
    C1_mine_salt_sound createxAddr 238 zeroSalt 1 ⟨zeroSalt, goldenAddr, 238, 1⟩
      (by decide) h⟩

/-- C2 counterexample: at `max_attempts = u64::MAX` the chunk-count
computation `(max_attempts + chunk_size - 1) / chunk_size` wraps modulo
`2^64` to zero chunks, so `mine_salt` reports exhaustion even though the
very first counter of `[0, max_attempts)` matches the target bitmap. -/
theorem C2_counterexample :
    mine_salt createxAddr 238 zeroSalt U64MAX = none ∧
    (0 : Nat) < U64MAX ∧
    matches_bitmap (compute_create3_address (saltFor zeroSalt 0) createxAddr) 238 = true := by
  refine ⟨by decide, by decide, by decide⟩

/-- C2 (amended): for `0 < max_attempts ≤ 2^64 - chunk_size`, so that the
chunk-count computation does not wrap, `mine_salt` returns `none` iff no
counter in `[0, max_attempts)` derives a matching address. -/
theorem C2_mine_salt_exhaustion (f : List Nat) (t : Nat) (b : List Nat) (ma : Nat)
    (h0 : ma ≠ 0) (hle : ma + chunkSize - 1 < 2 ^ 64) :
    mine_salt f t b ma = none ↔
      ∀ i, i < ma →
        matches_bitmap (compute_create3_address (saltFor b i) f) t = false := by
  rw [mine_salt_eq_scan, scanUpper_bounded ma h0 hle,
    scanFrom_eq_none_iff f t b ma 0]
  constructor
  · intro h i hi
    exact h i (by omega) (by omega)
  · intro h i h1 h2
    exact h i (by omega)

/-- Witness for C2: one attempt with a non-matching target reports
exhaustion exactly when counter 0 does not match. -/
theorem C2_witness :
    ((1 : Nat) ≠ 0 ∧ 1 + chunkSize - 1 < 2 ^ 64) ∧
    (mine_salt createxAddr 239 zeroSalt 1 = none ↔
      ∀ i, i < 1 →
        matches_bitmap (compute_create3_address (saltFor zeroSalt i) createxAddr) 239 =
          false) :=
  ⟨⟨by decide, by decide⟩,
    C2_mine_salt_exhaustion createxAddr 239 zeroSalt 1 (by decide) (by decide)⟩

/-- C7 counterexample: with `max_attempts = 0` (unlimited) the searched
segment ends at `(u64::MAX / 10000) * 10000 = 18446744073709550000`, which is
1615 counters short of `u64::MAX`, so the scanned space is not `[0, u64::MAX)`. -/
theorem C7_counterexample :
    scanUpper 0 = 18446744073709550000 ∧
    18446744073709550000 < U64MAX ∧
    mine_salt createxAddr 238 zeroSalt 0 =
      scanFrom createxAddr 238 zeroSalt 0 (scanUpper 0) := by
  exact ⟨by decide, by decide, mine_salt_eq_scan createxAddr 238 zeroSalt 0⟩

/-- C7 (amended): the unlimited search scans exactly the counters in
`[0, (u64::MAX / 10000) * 10000)`, and a bounded search with
`0 < max_attempts ≤ 2^64 - chunk_size` scans exactly `[0, max_attempts)`,
both as a sequential first-match scan over that initial segment. -/
theorem C7_scan_range (ma : Nat) :
    (∀ f t b, mine_salt f t b 0 =
      scanFrom f t b 0 (U64MAX / chunkSize * chunkSize)) ∧
    (ma ≠ 0 → ma + chunkSize - 1 < 2 ^ 64 →
      ∀ f t b, mine_salt f t b ma = scanFrom f t b 0 ma) := by
  constructor
  · intro f t b
    have h : scanUpper 0 = U64MAX / chunkSize * chunkSize := by decide
    rw [mine_salt_eq_scan, h]
  · intro h0 hle f t b
    rw [mine_salt_eq_scan, scanUpper_bounded ma h0 hle]

/-- Witness for C7 at `max_attempts = 10`. -/
theorem C7_witness :
    ((10 : Nat) ≠ 0 ∧ 10 + chunkSize - 1 < 2 ^ 64) ∧
    mine_salt createxAddr 5 zeroSalt 10 = scanFrom createxAddr 5 zeroSalt 0 10 :=
  ⟨⟨by decide, by decide⟩,
    (C7_scan_range 10).2 (by decide) (by decide) createxAddr 5 zeroSalt⟩

/-- C3: the Stage-A (CREATE2-style) address is the low 20 bytes of the hash
of the 85-byte buffer `0xFF ++ deployer ++ salt ++ init_code_hash`. -/
theorem C3_create2_buffer (d s h : List Nat)
    (hd : d.length = 20) (hs : s.length = 32) (hh : h.length = 32) :
    compute_create2_address d s h = (keccak256 (0xff :: (d ++ s ++ h))).drop 12 := by
  have h1 : (List.replicate 85 (0:Nat)).set 0 0xff = 0xff :: List.replicate 84 0 := by
    decide
  have h2 : writeBytes (0xff :: List.replicate 84 (0:Nat)) 1 d =
      (0xff :: d) ++ List.replicate 64 0 := by
    have hw := writeBytes_append d [0xff] (List.replicate 84 0) 1 (by simp) (by simp [hd])
    simpa [drop_replicate, hd] using hw
  have h3 : writeBytes ((0xff :: d) ++ List.replicate 64 (0:Nat)) 21 s =
      ((0xff :: d) ++ s) ++ List.replicate 32 0 := by
    have hw := writeBytes_append s (0xff :: d) (List.replicate 64 0) 21
      (by simp [hd]) (by simp [hs])
    simpa [drop_replicate, hs] using hw
  have h4 : writeBytes (((0xff :: d) ++ s) ++ List.replicate 32 (0:Nat)) 53 h =
      ((0xff :: d) ++ s) ++ h := by
    have hw := writeBytes_append h ((0xff :: d) ++ s) (List.replicate 32 0) 53
      (by simp [hd, hs]) (by simp [hh])
    simpa [drop_replicate, hh] using hw
  show (keccak256 (writeBytes (writeBytes (writeBytes
      ((List.replicate 85 0).set 0 0xff) 1 d) 21 s) 53 h)).drop 12 = _
  rw [h1, h2, h3, h4]
  simp [List.append_assoc]

/-- Witness for C3 at the CreateX deployer, the zero salt and the proxy init
code hash. -/
theorem C3_witness :
    (createxAddr.length = 20 ∧ zeroSalt.length = 32 ∧
      PROXY_INIT_CODE_HASH.length = 32) ∧
    compute_create2_address createxAddr zeroSalt PROXY_INIT_CODE_HASH =
      (keccak256 (0xff :: (createxAddr ++ zeroSalt ++ PROXY_INIT_CODE_HASH))).drop 12 :=
  ⟨⟨by decide, by decide, by decide⟩,
    C3_create2_buffer createxAddr zeroSalt PROXY_INIT_CODE_HASH
      (by decide) (by decide) (by decide)⟩

/-- C4: the Stage-B (CREATE-with-nonce-1) address is the low 20 bytes of the
hash of the 23-byte buffer `0xD6 0x94 <address> 0x01`, and the CREATE3
address is the composition of Stage B after Stage A with the proxy init code
hash. -/
theorem C4_create_nonce1_composite (a : List Nat) (ha : a.length = 20) :
    compute_create_address_nonce_1 a =
      (keccak256 (0xd6 :: 0x94 :: (a ++ [0x01]))).drop 12 ∧
    ∀ s f, compute_create3_address s f =
      compute_create_address_nonce_1 (compute_create2_address f s PROXY_INIT_CODE_HASH) := by
  constructor
  · have h1 : ((List.replicate 23 (0:Nat)).set 0 0xd6).set 1 0x94 =
        0xd6 :: 0x94 :: List.replicate 21 0 := by decide
    have h2 : writeBytes (0xd6 :: 0x94 :: List.replicate 21 (0:Nat)) 2 a =
        (0xd6 :: 0x94 :: a) ++ List.replicate 1 0 := by
      have hw := writeBytes_append a [0xd6, 0x94] (List.replicate 21 0) 2
        (by simp) (by simp [ha])
      simpa [drop_replicate, ha] using hw
    have h3 : ((0xd6 :: 0x94 :: a) ++ List.replicate 1 (0:Nat)).set 22 0x01 =
        0xd6 :: 0x94 :: (a ++ [0x01]) := by
      have hlen : (0xd6 :: 0x94 :: a).length = 22 := by simp [ha]
      rw [show List.replicate 1 (0:Nat) = [0] from rfl,
        show (22:Nat) = (0xd6 :: 0x94 :: a).length from hlen.symm,
        List.set_append_right _ _ (Nat.le_refl _), Nat.sub_self]
      simp
    show (keccak256 ((writeBytes (((List.replicate 23 0).set 0 0xd6).set 1 0x94)
        2 a).set 22 0x01)).drop 12 = _
    rw [h1, h2, h3]
  · intro s f
    rfl

/-- Witness for C4 at the CreateX deployer address. -/
theorem C4_witness :
    (createxAddr.length = 20) ∧
    (compute_create_address_nonce_1 createxAddr =
        (keccak256 (0xd6 :: 0x94 :: (createxAddr ++ [0x01]))).drop 12 ∧
      ∀ s f, compute_create3_address s f =
        compute_create_address_nonce_1
          (compute_create2_address f s PROXY_INIT_CODE_HASH)) :=
  ⟨by decide, C4_create_nonce1_composite createxAddr (by decide)⟩

/-- C9: batch mining returns one entry per target, each entry being exactly
`mine_salt` on that target with the base salt derived from the target's name
(first 20 name bytes written into an otherwise-zero 32-byte buffer), so batch
execution does not perturb the individual per-target outcomes. -/
theorem C9_mine_multiple_independent (f : List Nat) (es : List (List Nat × Nat))
    (ma : Nat) :
    (mine_multiple f es ma).length = es.length ∧
    (∀ k : Nat, (mine_multiple f es ma)[k]? =
      (es[k]?).map (fun e : List Nat × Nat =>
        (e.1, mine_salt f e.2 (baseSaltOfName e.1) ma))) ∧
    ∀ nb, baseSaltOfName nb =
      nb.take 20 ++ List.replicate (32 - (nb.take 20).length) 0 := by
  refine ⟨by simp [mine_multiple], fun k => by simp [mine_multiple], fun nb => ?_⟩
  have hw := writeBytes_append (nb.take 20) [] (List.replicate 32 0) 0 (by simp)
    (by simp only [List.length_take, List.length_replicate]; omega)
  simpa only [baseSaltOfName, List.nil_append, drop_replicate, List.length_take,
    List.length_replicate] using hw
